import Mathlib

/-!
Verification of the agentic-runtime plan lifecycle engine.

This file shallowly embeds the core of the Rust sources in Lean 4 and proves
properties of the embedding:

* `src/agent/mod.rs` — `BasicAgent::simulate`, `BasicAgent::execute`,
  `BasicAgent::replan` (the Execution Engine and its criticality
  classification, output chaining, and result assembly);
* `src/validation/plan.rs` — `validate_plan` and `PlanValidationError`;
* `src/protocol/planner.rs` / `src/protocol/replanner.rs` — the
  extraction/repair/parse pipeline of `generate_plan` and
  `generate_followup_plan` (the backend call itself is external; the
  pipeline is embedded as a function of the backend's `ToolResult`);
* `src/main.rs` — the post-execution follow-up (replanning) phase.

Machine strings are modelled as Lean `String` (a packed `List Char`); all
string primitives used by the embedding are written here by structural
recursion over `String.data` so that every definition evaluates inside the
kernel.  Rust byte indexing coincides with character indexing on the ASCII
data these functions are applied to.  Console I/O (prompts, colored
printing) is modelled by an explicit list of stdin responses threaded
through the execution state; log writes (`Context::log`) are modelled by an
entry list in the state.  External subprocesses and the LLM backend are
modelled as function-valued parameters (`Tool.run`), matching the `Tool`
trait contract of `src/tools/mod.rs`.
-/

/-! ## String primitives (ASCII model of the Rust std string operations) -/

/-- Whitespace test used by the Rust `trim`/`trim_start` calls (ASCII model
of `char::is_whitespace`). -/
def isWsChar (c : Char) : Bool :=
  c = ' ' || c = '\t' || c = '\n' || c = '\r'

/-- Rust `str::starts_with`. -/
def strStartsWith (s pre : String) : Bool :=
  pre.data.isPrefixOf s.data

/-- Rust `str::ends_with`. -/
def strEndsWith (s post : String) : Bool :=
  post.data.isSuffixOf s.data

/-- Rust slicing `s[n..]` (character model). -/
def strDrop (s : String) (n : Nat) : String :=
  ⟨s.data.drop n⟩

/-- Rust slicing `s[..len-n]` (character model). -/
def strDropRight (s : String) (n : Nat) : String :=
  ⟨s.data.take (s.data.length - n)⟩

/-- Rust `str::trim` (ASCII whitespace model). -/
def strTrim (s : String) : String :=
  ⟨((s.data.dropWhile isWsChar).reverse.dropWhile isWsChar).reverse⟩

/-- Rust `str::trim_start` (ASCII whitespace model). -/
def strTrimStart (s : String) : String :=
  ⟨s.data.dropWhile isWsChar⟩

/-- Rust `str::contains(char)`. -/
def strContainsChar (s : String) (c : Char) : Bool :=
  s.data.contains c

/-- Substring occurrence (model of Rust `str::contains` for string
patterns): the pattern occurs contiguously somewhere in the text. -/
def listContainsSub (pat : List Char) : List Char → Bool
  | [] => pat.isPrefixOf []
  | c :: rest => pat.isPrefixOf (c :: rest) || listContainsSub pat rest

/-! ## Data model (`src/protocol/mod.rs`, `src/tools/mod.rs`) -/

/-- `PlanStep` from `src/protocol/mod.rs`: an informational note or a
capability invocation. -/
inductive PlanStep where
  | Info (message : String)
  | ToolCall (name : String) (input : String)
deriving DecidableEq, Repr

/-- `Plan` from `src/protocol/mod.rs`. -/
structure Plan where
  steps : List PlanStep
deriving DecidableEq, Repr

/-- `SimulationResult` from `src/protocol/mod.rs`. -/
structure SimulationResult where
  predicted_outcome : String
  warnings : List String
deriving DecidableEq, Repr

/-- `ExecutionResult` from `src/protocol/mod.rs`. -/
structure ExecutionResult where
  success : Bool
  output : Option String
  errors : List String
deriving DecidableEq, Repr

/-- `ToolResult` from `src/tools/mod.rs`: the outcome of one capability
invocation. -/
structure ToolResult where
  success : Bool
  output : Option String
  error : Option String
deriving DecidableEq, Repr

/-- A registered tool: the `Tool` trait of `src/tools/mod.rs` restricted to
what the engine consumes — `spec()` metadata (name, description,
input_hint) and `execute` as a pure function. -/
structure Tool where
  name : String
  description : String
  input_hint : String
  run : String → ToolResult

/-- The tool registry of `Context` (`src/context/mod.rs`):
`get_tool : name → Option Tool`. -/
structure Ctx where
  tools : String → Option Tool

/-! ## Execution Engine (`BasicAgent::execute`, `src/agent/mod.rs` 102–215) -/

/-- Per-pass mutable state of `BasicAgent::execute`: output buffer, error
list, critical-failure counter, the chaining map `previous_outputs`
(modelled as an association list, most recent binding first, so lookup
matches `HashMap` overwrite semantics), the audit log written via
`Context::log`, and the remaining stdin lines for the confirmation
prompts. -/
structure ExecState where
  combined_output : String
  errors : List String
  critical_failures : Nat
  previous_outputs : List (String × String)
  log : List (String × String)
  responses : List String

/-- Initial state of one execution pass (`src/agent/mod.rs` 107–110),
with the stdin stream to be consumed by confirmation prompts. -/
def initState (rs : List String) : ExecState :=
  { combined_output := ""
    errors := []
    critical_failures := 0
    previous_outputs := []
    log := []
    responses := rs }

/-- Lookup in the chaining map (`previous_outputs.get(key)`): first
binding wins, i.e. the most recently inserted one. -/
def alookup (key : String) : List (String × String) → Option String
  | [] => none
  | (n, o) :: rest => if n = key then some o else alookup key rest

/-- Input resolution of `BasicAgent::execute` (`src/agent/mod.rs`
115–123): if the whole input starts with `$output[` and ends with `]`,
substitute the captured output for the key between them, or a literal
placeholder when none exists; otherwise pass the input through verbatim. -/
def resolveInput (prev : List (String × String)) (input : String) : String :=
  if strStartsWith input "$output[" && strEndsWith input "]" then
    let key := strDropRight (strDrop input 8) 1
    match alookup key prev with
    | some v => v
    | none => "(missing output for '" ++ key ++ "')"
  else input

/-- Criticality classification of tool failures (`src/agent/mod.rs`
161–166): the Rust `match` written as its equivalent chain of string
comparisons. -/
def isCritical (name : String) : Bool :=
  if name = "run_command" then true
  else if name = "reflect" then false
  else if name = "analyze_error" then false
  else true

/-- Append one audit-log entry (`Context::log`). -/
def logEntry (st : ExecState) (label content : String) : ExecState :=
  { st with log := st.log ++ [(label, content)] }

/-- A confirmation response that skips the step (`src/agent/mod.rs`
129–133): the trimmed line equals `n` or `N`. -/
def isSkip (line : String) : Bool :=
  strTrim line = "n" || strTrim line = "N"

/-- The `ToolCall` arm of `BasicAgent::execute` (`src/agent/mod.rs`
114–196) after the confirmation prompt: resolve the input (the source
computes the resolved input before printing the prompt; resolution is
pure, so evaluating it after the skip decision is observationally
identical), look the tool up, invoke it, record output on success,
classify and count the failure otherwise, and on a critical failure run
the `analyze_error` tool (when registered) and log its successful output
under `error_analysis`. -/
def executeToolCall (ctx : Ctx) (st : ExecState) (name input : String) : ExecState :=
  let resolved := resolveInput st.previous_outputs input
  match ctx.tools name with
  | some t =>
    let result := t.run resolved
    let st1 := logEntry st ("tool: " ++ name)
      ("[input] " ++ resolved ++ "\n[output] " ++ result.output.getD "")
    if result.success then
      match result.output with
      | some output =>
        { st1 with
          previous_outputs := (name, output) :: st1.previous_outputs
          combined_output := st1.combined_output ++ output ++ "\n" }
      | none => st1
    else
      let errMsg := result.error.getD "Unknown error"
      let st2 := { st1 with errors := st1.errors ++ [errMsg] }
      let st3 :=
        if isCritical name then
          { st2 with critical_failures := st2.critical_failures + 1 }
        else st2
      let st4 := logEntry st3 "execution_error"
        ("Tool '" ++ name ++ "' failed: " ++ errMsg)
      if isCritical name then
        match ctx.tools "analyze_error" with
        | some analyzer =>
          let ar := analyzer.run errMsg
          if ar.success then
            match ar.output with
            | some analysis => logEntry st4 "error_analysis" analysis
            | none => st4
          else st4
        | none => st4
      else st4
  | none =>
    { st with
      critical_failures := st.critical_failures + 1
      errors := st.errors ++ ["Tool not found: " ++ name] }

/-- The `Info` arm of `BasicAgent::execute` (`src/agent/mod.rs`
197–200). -/
def executeInfo (st : ExecState) (message : String) : ExecState :=
  { logEntry st "info" message with
    combined_output := st.combined_output ++ "[INFO] " ++ message ++ "\n" }

/-- Pop the next stdin line for a confirmation prompt (`stdin().read_line`,
`src/agent/mod.rs` 125–128); an exhausted stream reads as the empty
line. -/
def popResponse (st : ExecState) : String × ExecState :=
  (st.responses.headD "", { st with responses := st.responses.tail })

/-- The step loop of `BasicAgent::execute` (`src/agent/mod.rs` 112–202):
`Info` steps append to the buffer; `ToolCall` steps consume one
confirmation response (a trimmed `n`/`N` skips the step entirely) and then
run `executeToolCall`. -/
def execGo (ctx : Ctx) : List PlanStep → ExecState → ExecState
  | [], st => st
  | PlanStep.Info m :: rest, st => execGo ctx rest (executeInfo st m)
  | PlanStep.ToolCall name input :: rest, st =>
    let (resp, st1) := popResponse st
    if isSkip resp then execGo ctx rest st1
    else execGo ctx rest (executeToolCall ctx st1 name input)

/-- `BasicAgent::execute` (`src/agent/mod.rs` 102–215): run all steps and
assemble the `ExecutionResult` — `success` iff the critical-failure count
is zero, `output` the trimmed buffer (via `model.set_output`), `errors`
the accumulated list.  Returns the result together with the final state. -/
def execute (ctx : Ctx) (plan : Plan) (rs : List String) : ExecutionResult × ExecState :=
  let st := execGo ctx plan.steps (initState rs)
  ({ success := st.critical_failures == 0
     output := some (strTrim st.combined_output)
     errors := st.errors }, st)

/-! ## Plan Simulation (`BasicAgent::simulate`, `src/agent/mod.rs` 70–100) -/

/-- The not-registered warnings collected by the simulation loop, in step
order (`src/agent/mod.rs` 74–86, the `else` arm). -/
def simulateNotRegistered (ctx : Ctx) : List PlanStep → List String
  | [] => []
  | PlanStep.Info _ :: rest => simulateNotRegistered ctx rest
  | PlanStep.ToolCall name _ :: rest =>
    match ctx.tools name with
    | some _ => simulateNotRegistered ctx rest
    | none => ("Tool '" ++ name ++ "' not registered") :: simulateNotRegistered ctx rest

/-- The `[TOOL]` description lines collected by the simulation loop, in
step order (`src/agent/mod.rs` 74–86, the `if let Some` arm). -/
def simulateToolLines (ctx : Ctx) : List PlanStep → List String
  | [] => []
  | PlanStep.Info _ :: rest => simulateToolLines ctx rest
  | PlanStep.ToolCall name _ :: rest =>
    match ctx.tools name with
    | some t =>
      ("[TOOL] " ++ t.name ++ " - " ++ t.description ++ " (hint: " ++ t.input_hint ++ ")")
        :: simulateToolLines ctx rest
    | none => simulateToolLines ctx rest

/-- `BasicAgent::simulate` (`src/agent/mod.rs` 70–100): dry-run pass; the
warning list is the not-registered warnings followed by the `[TOOL]` lines
(`warnings.extend(tools_used)`). -/
def simulate (ctx : Ctx) (plan : Plan) : SimulationResult :=
  let warnings := simulateNotRegistered ctx plan.steps
  let tools_used := simulateToolLines ctx plan.steps
  { predicted_outcome :=
      "Plan contains " ++ toString plan.steps.length ++ " step(s) and will attempt "
        ++ toString tools_used.length ++ " tool call(s)."
    warnings := warnings ++ tools_used }

/-! ## BasicAgent::replan (`src/agent/mod.rs` 224–238) -/

/-- `BasicAgent::replan`: delegate to the replanner when one is configured
(modelled as an optional function from the reflection text to the follow-up
plan; the goal and context only feed the prompt); an empty step list means
"no further action". -/
def replan (replanner : Option (String → Plan)) (reflection : String) : Option Plan :=
  match replanner with
  | some gen =>
    let plan := gen reflection
    if !plan.steps.isEmpty then some plan else none
  | none => none

/-! ## Orchestration follow-up phase (`src/main.rs` 86–131) -/

/-- The reflection text the follow-up phase of `main` feeds to
`Agent::replan` (`src/main.rs` 112–118): the content of the first
memory entry labelled `reflect`, if any. -/
def mainReflectionSource (mem : List (String × String)) : Option String :=
  (mem.find? fun e => e.1 == "reflect").map (·.2)

/-- The follow-up (replanning) decision of `main` (`src/main.rs`
111–130): after the execution pass, `main` unconditionally scans memory
for the first `reflect` entry and replans on it when present.  The
preceding `ExecutionResult` is in scope there but is never inspected by
this block, which is why the parameter is unused. -/
def orchestrationReplanAttempt (_execResult : ExecutionResult)
    (mem : List (String × String)) : Option String :=
  mainReflectionSource mem

/-! ## JSON documents (model of `serde_json::Value`) -/

/-- Model of `serde_json::Value`.  Numbers keep their source lexeme: the
engine never inspects numeric values, only shapes. -/
inductive Json where
  | null
  | bool (b : Bool)
  | num (lit : String)
  | str (s : String)
  | arr (elems : List Json)
  | obj (fields : List (String × Json))

/-- Field lookup in an object's field list.  The parser keeps duplicate
keys in document order, so the last binding wins, matching
`serde_json::Map` insertion (later duplicates overwrite earlier ones). -/
def getField (fields : List (String × Json)) (key : String) : Option Json :=
  match fields with
  | [] => none
  | (k, v) :: rest =>
    match getField rest key with
    | some r => some r
    | none => if k = key then some v else none

/-- `serde_json::Value::get(key)`: `None` on non-objects. -/
def Json.get (j : Json) (key : String) : Option Json :=
  match j with
  | .obj fields => getField fields key
  | _ => none

/-- `serde_json::Value::as_str`. -/
def Json.asStr (j : Json) : Option String :=
  match j with
  | .str s => some s
  | _ => none

/-! ## Plan Validator (`src/validation/plan.rs`) -/

/-- `PlanValidationError` from `src/validation/plan.rs`. -/
inductive PlanValidationError where
  | UnknownType (v : String)
  | DuplicateKey (k : String)
  | MissingField (f : String)
  | InvalidTool (name : String)
  | InvalidReference (v : String)
  | ToolInputMismatch (tool : String) (reason : String)
  | RegexError (desc : String)
  | StyleWarning (msg : String)
deriving DecidableEq, Repr

/-- The errors `validate_plan` accumulates for one step
(`src/validation/plan.rs` 56–101); the loop body with its `continue`s
written as one expression. -/
def stepErrors (registered_tools : List String) (step : Json) : List PlanValidationError :=
  match step.get "type" with
  | none => [.MissingField "type"]
  | some tv =>
    match tv.asStr with
    | none => [.ToolInputMismatch "<unknown>" "Field 'type' must be a string"]
    | some "tool" =>
      match (step.get "name").bind Json.asStr with
      | none => [.MissingField "name"]
      | some name =>
        (if registered_tools.contains name then [] else [.InvalidTool name])
        ++ (if name ≠ "git_status" ∧ (step.get "input").isNone then
              [.MissingField "input"] else [])
        ++ (match (step.get "input").bind Json.asStr with
            | some input =>
              if strContainsChar input '<' && strContainsChar input '>' then
                [.ToolInputMismatch name "Input contains placeholder like <file>"]
              else []
            | none => [])
    | some "info" =>
      if (step.get "message").isNone then [.MissingField "message"] else []
    | some unknown => [.UnknownType unknown]

/-- `validate_plan` (`src/validation/plan.rs` 53–105): a pure function
accumulating each step's warnings in order; it cannot fail. -/
def validate_plan (plan : List Json) (registered_tools : List String) : List PlanValidationError :=
  match plan with
  | [] => []
  | step :: rest => stepErrors registered_tools step ++ validate_plan rest registered_tools

/-! ## JSON text parsing (model of `serde_json::from_str::<Value>`) -/

/-- Value of one hexadecimal digit. -/
def hexVal (c : Char) : Option Nat :=
  if '0' ≤ c ∧ c ≤ '9' then some (c.toNat - 48)
  else if 'a' ≤ c ∧ c ≤ 'f' then some (c.toNat - 87)
  else if 'A' ≤ c ∧ c ≤ 'F' then some (c.toNat - 55)
  else none

/-- One string body, after the opening quote: plain characters (control
characters are rejected, as in serde_json) and the JSON escapes. -/
def parseStrAux : List Char → List Char → Option (String × List Char)
  | acc, '"' :: rest => some (⟨acc.reverse⟩, rest)
  | acc, '\\' :: e :: rest =>
    match e with
    | '"' => parseStrAux ('"' :: acc) rest
    | '\\' => parseStrAux ('\\' :: acc) rest
    | '/' => parseStrAux ('/' :: acc) rest
    | 'b' => parseStrAux ('\x08' :: acc) rest
    | 'f' => parseStrAux ('\x0c' :: acc) rest
    | 'n' => parseStrAux ('\n' :: acc) rest
    | 'r' => parseStrAux ('\r' :: acc) rest
    | 't' => parseStrAux ('\t' :: acc) rest
    | 'u' =>
      match rest with
      | h1 :: h2 :: h3 :: h4 :: rest' =>
        match hexVal h1, hexVal h2, hexVal h3, hexVal h4 with
        | some v1, some v2, some v3, some v4 =>
          parseStrAux (Char.ofNat (((v1 * 16 + v2) * 16 + v3) * 16 + v4) :: acc) rest'
        | _, _, _, _ => none
      | _ => none
    | _ => none
  | acc, c :: rest => if c.toNat < 32 then none else parseStrAux (c :: acc) rest
  | _, [] => none

/-- A JSON number lexeme: `-?(0|[1-9][0-9]*)(\.[0-9]+)?([eE][+-]?[0-9]+)?`. -/
def parseNumLexeme (cs : List Char) : Option (List Char × List Char) :=
  let (sign, cs1) := match cs with | '-' :: r => ([('-' : Char)], r) | _ => ([], cs)
  match cs1 with
  | '0' :: r =>
    match r.takeWhile Char.isDigit with
    | [] => some (sign ++ ['0'], r)
    | _ => none
  | c :: _ =>
    if c.isDigit then
      let ds := cs1.takeWhile Char.isDigit
      some (sign ++ ds, cs1.drop ds.length)
    else none
  | [] => none

/-- Fraction and exponent tails of a number lexeme. -/
def parseNumTail (cs : List Char) : Option (List Char × List Char) :=
  let (frac, cs1) :=
    match cs with
    | '.' :: r =>
      let ds := r.takeWhile Char.isDigit
      if ds.isEmpty then ([], cs) else ('.' :: ds, r.drop ds.length)
    | _ => ([], cs)
  if cs ≠ cs1 ∨ frac.isEmpty then
    match cs1 with
    | e :: r =>
      if e = 'e' ∨ e = 'E' then
        let (sg, r1) := match r with | '+' :: r' => (['+'], r') | '-' :: r' => (['-'], r') | _ => ([], r)
        let ds := r1.takeWhile Char.isDigit
        if ds.isEmpty then none else some (frac ++ e :: sg ++ ds, r1.drop ds.length)
      else some (frac, cs1)
    | [] => some (frac, cs1)
  else none

mutual

/-- Recursive-descent value parser with explicit fuel (the fuel is sized
by the caller so that it never runs out on a terminating parse). -/
def parseVal : Nat → List Char → Option (Json × List Char)
  | 0, _ => none
  | fuel + 1, cs0 =>
    let cs := cs0.dropWhile isWsChar
    match cs with
    | 'n' :: 'u' :: 'l' :: 'l' :: rest => some (.null, rest)
    | 't' :: 'r' :: 'u' :: 'e' :: rest => some (.bool true, rest)
    | 'f' :: 'a' :: 'l' :: 's' :: 'e' :: rest => some (.bool false, rest)
    | '"' :: rest =>
      match parseStrAux [] rest with
      | some (s, r) => some (.str s, r)
      | none => none
    | '[' :: rest =>
      match rest.dropWhile isWsChar with
      | ']' :: r2 => some (.arr [], r2)
      | _ => parseArrElems fuel rest []
    | '\x7b' :: rest =>
      match rest.dropWhile isWsChar with
      | '\x7d' :: r2 => some (.obj [], r2)
      | _ => parseObjFields fuel rest []
    | c :: _ =>
      if c = '-' ∨ c.isDigit then
        match parseNumLexeme cs with
        | some (lex1, r1) =>
          match parseNumTail r1 with
          | some (lex2, r2) => some (.num ⟨lex1 ++ lex2⟩, r2)
          | none => none
        | none => none
      else none
    | [] => none

/-- Array elements after `[` (at least one element pending). -/
def parseArrElems : Nat → List Char → List Json → Option (Json × List Char)
  | 0, _, _ => none
  | fuel + 1, cs, acc =>
    match parseVal fuel cs with
    | some (v, rest) =>
      match rest.dropWhile isWsChar with
      | ',' :: r2 => parseArrElems fuel r2 (v :: acc)
      | ']' :: r2 => some (.arr (v :: acc).reverse, r2)
      | _ => none
    | none => none

/-- Object members after `{` (at least one member pending). -/
def parseObjFields : Nat → List Char → List (String × Json) → Option (Json × List Char)
  | 0, _, _ => none
  | fuel + 1, cs, acc =>
    match cs.dropWhile isWsChar with
    | '"' :: r1 =>
      match parseStrAux [] r1 with
      | some (k, r2) =>
        match r2.dropWhile isWsChar with
        | ':' :: r3 =>
          match parseVal fuel r3 with
          | some (v, r4) =>
            match r4.dropWhile isWsChar with
            | ',' :: r5 => parseObjFields fuel r5 ((k, v) :: acc)
            | '\x7d' :: r5 => some (.obj ((k, v) :: acc).reverse, r5)
            | _ => none
          | none => none
        | _ => none
      | none => none
    | _ => none

end

/-- `serde_json::from_str::<Value>`: parse a complete document, allowing
trailing whitespace only. -/
def parseJson (s : String) : Option Json :=
  match parseVal (2 * s.data.length + 8) s.data with
  | some (v, rest) => if (rest.dropWhile isWsChar).isEmpty then some v else none
  | none => none

/-! ## Typed wire format (`PlannerResponse`/`PlannerStep`,
`src/protocol/planner.rs` 266–283 and `src/protocol/replanner.rs`
283–300, which are identical) -/

/-- The internally tagged `PlannerStep` enum: `{"type":"tool", "name", and
optional "input"}` or `{"type":"info", "message"}`. -/
inductive PlannerStep where
  | Tool (name : String) (input : Option String)
  | Info (message : String)
deriving DecidableEq, Repr

/-- Serde's decoding of one plan element (tag field `type`; `name` and
`message` required strings; `input` optional — absent or `null` becomes
`None`; extra fields are ignored). -/
def decodePlannerStep (j : Json) : Option PlannerStep :=
  match j with
  | .obj fields =>
    match getField fields "type" with
    | some (.str "tool") =>
      match getField fields "name" with
      | some (.str n) =>
        match getField fields "input" with
        | none => some (.Tool n none)
        | some .null => some (.Tool n none)
        | some (.str s) => some (.Tool n (some s))
        | some _ => none
      | _ => none
    | some (.str "info") =>
      match getField fields "message" with
      | some (.str m) => some (.Info m)
      | _ => none
    | _ => none
  | _ => none

/-- Decode a list of plan elements; any failing element fails the whole
document (as serde does for `Vec<PlannerStep>`). -/
def decodePlannerSteps : List Json → Option (List PlannerStep)
  | [] => some []
  | j :: rest =>
    match decodePlannerStep j with
    | some p =>
      match decodePlannerSteps rest with
      | some ps => some (p :: ps)
      | none => none
    | none => none

/-- Serde's decoding of `PlannerResponse`: an object whose `plan` field
(defaulting to the empty list when absent) is an array of plan
elements. -/
def decodePlannerResponse (j : Json) : Option (List PlannerStep) :=
  match j with
  | .obj fields =>
    match getField fields "plan" with
    | none => some []
    | some (.arr xs) => decodePlannerSteps xs
    | some _ => none
  | _ => none

/-- Conversion of a decoded element into a `PlanStep`
(`src/protocol/planner.rs` 241–247): a tool step with no input defaults
to the empty string. -/
def plannerStepToPlanStep : PlannerStep → PlanStep
  | .Tool n i => .ToolCall n (i.getD "")
  | .Info m => .Info m

/-! ## Text cleaning and extraction (`src/protocol/planner.rs` 140–190,
duplicated verbatim in `src/protocol/replanner.rs` 157–207) -/

/-- Split on a non-empty separator (model of Rust `str::split`), with
explicit fuel sized by the caller. -/
def splitSeg (sep : List Char) : Nat → List Char → List Char → List (List Char)
  | 0, cs, acc => [acc.reverse ++ cs]
  | fuel + 1, cs, acc =>
    if sep.isPrefixOf cs then acc.reverse :: splitSeg sep fuel (cs.drop sep.length) []
    else
      match cs with
      | [] => [acc.reverse]
      | c :: rest => splitSeg sep fuel rest (c :: acc)

/-- Rust `str::split` on a non-empty substring separator. -/
def strSplitOnSub (s sep : String) : List String :=
  (splitSeg sep.data (s.data.length + 1) s.data []).map (⟨·⟩)

/-- Replace every occurrence, left to right and without rescanning the
replacement (model of Rust `str::replace`), with explicit fuel. -/
def replaceSeg (pat repl : List Char) : Nat → List Char → List Char
  | 0, cs => cs
  | fuel + 1, cs =>
    if pat.isPrefixOf cs then repl ++ replaceSeg pat repl fuel (cs.drop pat.length)
    else
      match cs with
      | [] => []
      | c :: rest => c :: replaceSeg pat repl fuel rest

/-- Rust `str::replace` for a non-empty pattern. -/
def strReplace (s pat repl : String) : String :=
  ⟨replaceSeg pat.data repl.data (s.data.length + 1) s.data⟩

/-- Strip one trailing carriage return (part of Rust `str::lines`). -/
def stripCr (l : String) : String :=
  if strEndsWith l "\r" then strDropRight l 1 else l

/-- Rust `str::lines`: split on `\n`, strip the `\r` of each `\r\n`
ending, and do not produce a final empty line for a trailing newline. -/
def rustLines (s : String) : List String :=
  let segs := strSplitOnSub s "\n"
  let all := segs.dropLast.map stripCr ++ [segs.getLastD ""]
  if all.getLastD "" = "" then all.dropLast else all

/-- The line filter of the cleaning stage (`src/protocol/planner.rs`
148–154): drop fenced-code markers, dividers, headings and blank
lines. -/
def keepLine (line : String) : Bool :=
  !(strStartsWith (strTrimStart line) "```")
    && !(strStartsWith (strTrimStart line) "---")
    && !(strStartsWith (strTrimStart line) "### ")
    && !(strTrim line == "")

/-- Whitespace class of the `\s` regex escape (ASCII model). -/
def isRegexWs (c : Char) : Bool :=
  isWsChar c || c = '\x0b' || c = '\x0c'

/-- Length of a `\]\s*\}` match at the head of the text, if any (the
closing part of the extraction regex). -/
def closeLen (cs : List Char) : Option Nat :=
  match cs with
  | ']' :: rest =>
    let w := (rest.takeWhile isRegexWs).length
    match rest.drop w with
    | '\x7d' :: _ => some (1 + w + 1)
    | _ => none
  | _ => none

/-- The non-greedy `.*?\]\s*\}` tail: total length consumed from here up
to and including the first reachable `]\s*}`. -/
def lazyScan : List Char → Option Nat
  | [] => none
  | c :: rest =>
    match closeLen (c :: rest) with
    | some m => some m
    | none => (lazyScan rest).map (· + 1)

/-- A `\{\s*"plan"\s*:\s*\[` match at the head of the text: length
consumed, and the remaining text. -/
def headMatch (cs : List Char) : Option (Nat × List Char) :=
  match cs with
  | '\x7b' :: r1 =>
    let w1 := (r1.takeWhile isRegexWs).length
    match r1.drop w1 with
    | '"' :: 'p' :: 'l' :: 'a' :: 'n' :: '"' :: r2 =>
      let w2 := (r2.takeWhile isRegexWs).length
      match r2.drop w2 with
      | ':' :: r3 =>
        let w3 := (r3.takeWhile isRegexWs).length
        match r3.drop w3 with
        | '[' :: r4 => some (1 + w1 + 6 + w2 + 1 + w3 + 1, r4)
        | _ => none
      | _ => none
    | _ => none
  | _ => none

/-- A full extraction-regex match starting exactly here: its length. -/
def matchPlanAt (cs : List Char) : Option Nat :=
  match headMatch cs with
  | some (n, rest) => (lazyScan rest).map (n + ·)
  | none => none

/-- Leftmost match of the extraction regex
`(?s)\{\s*"plan"\s*:\s*\[.*?\]\s*\}` (`src/protocol/planner.rs` 159). -/
def findPlanAux : List Char → Option (List Char)
  | [] => none
  | c :: rest =>
    match matchPlanAt (c :: rest) with
    | some len => some ((c :: rest).take len)
    | none => findPlanAux rest

/-- `Regex::find` of the plan-extraction pattern over the cleaned text. -/
def findPlanJson (s : String) : Option String :=
  (findPlanAux s.data).map (⟨·⟩)

/-- The `"type": "<n>"` pattern the repair rewrites search for
(`src/protocol/planner.rs` 167–190). -/
def typePat (n : String) : String :=
  "\"type\": \"" ++ n ++ "\""

/-- The `"tool"`-wrapper replacement text of the repair
(`src/protocol/planner.rs` 167–179). -/
def toolWrapRepl (n : String) : String :=
  "\"type\": \"tool\", \"name\": \"" ++ n ++ "\""

/-- The `"info"` replacement text for disallowed step types
(`src/protocol/planner.rs` 189). -/
def infoTypeRepl : String :=
  "\"type\": \"info\""

/-- The wrapper-repair rewrites (`src/protocol/planner.rs` 167–179): the
three fixed tool names whose bare `{"type": "<name>"}` spelling is
rewritten to the `"tool"` wrapper. -/
def autoFixTypes (s : String) : String :=
  strReplace
    (strReplace
      (strReplace s "\"type\": \"run_command\"" "\"type\": \"tool\", \"name\": \"run_command\"")
      "\"type\": \"reflect\"" "\"type\": \"tool\", \"name\": \"reflect\"")
    "\"type\": \"analyze_error\"" "\"type\": \"tool\", \"name\": \"analyze_error\""

/-- Length of a `,?\s*//[^\n\r]*` match at the head of the text, if any
(the comment-stripping regex of `src/protocol/planner.rs` 182). -/
def commentLen (cs : List Char) : Option Nat :=
  let (n1, cs1) := match cs with | ',' :: r => (1, r) | _ => (0, cs)
  let w := (cs1.takeWhile isRegexWs).length
  match cs1.drop w with
  | '/' :: '/' :: r =>
    some (n1 + w + 2 + (r.takeWhile (fun c => !(c = '\n' || c = '\r'))).length)
  | _ => none

/-- `Regex::replace_all` of the comment pattern with the empty string:
leftmost matches removed, scanning resuming after each match. -/
def stripCommentsAux : Nat → List Char → List Char
  | 0, cs => cs
  | fuel + 1, cs =>
    match commentLen cs with
    | some n => stripCommentsAux fuel (cs.drop n)
    | none =>
      match cs with
      | [] => []
      | c :: rest => c :: stripCommentsAux fuel rest

/-- Remove inline `//` comments (`src/protocol/planner.rs` 181–183). -/
def stripComments (s : String) : String :=
  ⟨stripCommentsAux (s.data.length + 1) s.data⟩

/-- The disallowed step-type tokens (`src/protocol/planner.rs` 186). -/
def invalidTypeTokens : List String :=
  ["condition", "check", "validate", "if", "when"]

/-- Rewrite each disallowed `"type"` value to `"info"`
(`src/protocol/planner.rs` 185–190). -/
def fixInvalidTypes (s : String) : String :=
  invalidTypeTokens.foldl
    (fun acc t => strReplace acc ("\"type\": \"" ++ t ++ "\"") "\"type\": \"info\"") s

/-- The cleaning stage of the extraction pipeline
(`src/protocol/planner.rs` 140–156): take the text after a `</think>`
marker and drop fence/divider/heading/blank lines. -/
def cleanedPlannerText (raw : String) : String :=
  let post_think :=
    if 1 < (strSplitOnSub raw "</think>").length then
      (strSplitOnSub raw "</think>").getLastD raw
    else raw
  String.intercalate "\n" ((rustLines post_think).filter keepLine)

/-- The full extraction-and-repair pipeline applied to the raw backend
output (`src/protocol/planner.rs` 140–190 and, identically,
`src/protocol/replanner.rs` 157–207): clean, extract the first
`{"plan": [...]}` block (empty string when none), then apply the wrapper
repair, comment stripping and invalid-type rewrites. -/
def extractRepairedPlanJson (raw : String) : String :=
  fixInvalidTypes (stripComments (autoFixTypes
    ((findPlanJson (cleanedPlannerText raw)).getD "")))

/-- The `plan` array handed to the Validator
(`src/protocol/planner.rs` 218–222): `parsed_json.get("plan")` as an
array, defaulting to empty. -/
def planStepsJson (v : Json) : List Json :=
  match v.get "plan" with
  | some (.arr xs) => xs
  | _ => []

/-- The hardcoded known-capability list of the planner and replanner
(`src/protocol/planner.rs` 224, `src/protocol/replanner.rs` 241). -/
def registeredToolsList : List String :=
  ["run_command", "reflect", "analyze_error"]

/-- `LLMPlanner::generate_plan` (`src/protocol/planner.rs` 28–263) as a
function of the backend call's result.  Prompt construction and log
writes are I/O without influence on the returned value; the validator is
invoked on the raw document for logging only. -/
def generate_plan (res : ToolResult) : Plan :=
  let raw := res.output.getD ""
  let json_str := extractRepairedPlanJson raw
  if !res.success then ⟨[.Info "Planner LLM failed."]⟩
  else
    match parseJson json_str with
    | none => ⟨[.Info "Failed to parse structured plan."]⟩
    | some v =>
      let _warnings := validate_plan (planStepsJson v) registeredToolsList
      match decodePlannerResponse v with
      | some steps => ⟨steps.map plannerStepToPlanStep⟩
      | none => ⟨[.Info "Planner JSON parse error."]⟩

/-- `LLMReplanner::generate_followup_plan` (`src/protocol/replanner.rs`
28–280) as a function of the backend call's result: the same pipeline as
`generate_plan` with the replanner's failure messages.  The goal and
reflection only feed the prompt. -/
def generate_followup_plan (res : ToolResult) : Plan :=
  let raw := res.output.getD ""
  let json_str := extractRepairedPlanJson raw
  if !res.success then ⟨[.Info "Replanner LLM failed."]⟩
  else
    match parseJson json_str with
    | none => ⟨[.Info "Failed to parse replanned output."]⟩
    | some v =>
      let _warnings := validate_plan (planStepsJson v) registeredToolsList
      match decodePlannerResponse v with
      | some steps => ⟨steps.map plannerStepToPlanStep⟩
      | none => ⟨[.Info "Replanner JSON parse error."]⟩

/-- The capability names registered by `main` (`src/main.rs` 51–57),
i.e. the `name()` of each registered tool: `FakeEchoTool` is `echo`,
`GitStatusTool` is `git_status`, `ReflectorTool` is `reflect`, `LLMTool`
is `llm`, `RunCommandTool` is `run_command`. -/
def mainRegistryToolNames : List String :=
  ["echo", "git_status", "reflect", "llm", "run_command"]

/-! ## Claim-side specification definitions -/

/-- The chronological capture trace of one execution pass, written from
the chaining specification: one `(capability, output)` entry per
confirmed, registered invocation that succeeds with an output; failed
invocations, skipped steps and unknown capabilities record nothing.  The
map visible to each step is the reversal of the trace so far.  Returns
the trace together with the remaining stdin responses. -/
def captureTrace (ctx : Ctx) :
    List PlanStep → List String → List (String × String) →
    List (String × String) × List String
  | [], rs, sofar => (sofar, rs)
  | PlanStep.Info _ :: rest, rs, sofar => captureTrace ctx rest rs sofar
  | PlanStep.ToolCall name input :: rest, rs, sofar =>
    let r := rs.headD ""
    let rs' := rs.tail
    if isSkip r then captureTrace ctx rest rs' sofar
    else
      match ctx.tools name with
      | none => captureTrace ctx rest rs' sofar
      | some t =>
        let res := t.run (resolveInput sofar.reverse input)
        if res.success then
          match res.output with
          | some o => captureTrace ctx rest rs' (sofar ++ [(name, o)])
          | none => captureTrace ctx rest rs' sofar
        else captureTrace ctx rest rs' sofar

/-- The most recent (chronologically last) output captured for a key in a
capture trace. -/
def mostRecentCapture (key : String) : List (String × String) → Option String
  | [] => none
  | (n, o) :: rest =>
    match mostRecentCapture key rest with
    | some r => some r
    | none => if n = key then some o else none

/-- Wire-format shape of a tool element, written from the interface
specification: `{"type":"tool","name":...,"input":...}`, the `input`
field optional. -/
def isWireToolElem (e : Json) : Prop :=
  e.get "type" = some (.str "tool")
  ∧ (∃ n, e.get "name" = some (.str n))
  ∧ (e.get "input" = none ∨ ∃ s, e.get "input" = some (.str s))

/-- Wire-format shape of an info element:
`{"type":"info","message":...}`. -/
def isWireInfoElem (e : Json) : Prop :=
  e.get "type" = some (.str "info") ∧ ∃ m, e.get "message" = some (.str m)

/-- Content preservation between a wire element and a decoded `PlanStep`:
a tool element maps to `ToolCall` with the same name and input (empty
input when the field is absent), an info element to `Info` with the same
message. -/
def stepCorresponds (e : Json) (st : PlanStep) : Prop :=
  (∀ n, e.get "type" = some (.str "tool") → e.get "name" = some (.str n) →
    ((∀ s, e.get "input" = some (.str s) → st = .ToolCall n s)
      ∧ (e.get "input" = none → st = .ToolCall n "")))
  ∧ (∀ m, e.get "type" = some (.str "info") → e.get "message" = some (.str m) →
      st = .Info m)

/-! ## Concrete fixtures for the closed instances below -/

/-- Model of `FakeEchoTool` (`src/tools/fake_echo.rs`) with the default
`spec()` of `src/tools/mod.rs`: always succeeds with `Echoed: {input}`. -/
def echoTool : Tool :=
  ⟨"echo", "Echoes the input back with a prefix", "Freeform string input",
    fun input => ⟨true, some ("Echoed: " ++ input), none⟩⟩

/-- A capability in a failing environment: every invocation fails with
error text `boom` (the `Tool` contract allows any such behaviour, e.g.
`RunCommandTool` on a dead subprocess). -/
def failTool : Tool :=
  ⟨"bad", "a tool whose invocation fails", "anything",
    fun _ => ⟨false, none, some "boom"⟩⟩

/-- Model of `ErrorAnalyzerTool` (`src/tools/error_analyzer.rs`) in an
environment where the backend answers `fix`. -/
def analyzerTool : Tool :=
  ⟨"analyze_error", "Analyzes command failures and suggests specific fixes",
    "error message", fun _ => ⟨true, some "fix", none⟩⟩

/-- Model of `ReflectorTool` (`src/tools/reflector.rs`) in an environment
where the backend call fails: `ToolResult::failure` with its fixed
message. -/
def reflectFailTool : Tool :=
  ⟨"reflect", "Analyzes a memory log and generates a reflection summary using LLM.",
    "Pass memory log and goal as plain text.",
    fun _ => ⟨false, none, some "LLM failed to generate reflection."⟩⟩

/-- A registry holding only the echo tool. -/
def ctxEcho : Ctx := ⟨fun n => if n = "echo" then some echoTool else none⟩

/-- A registry holding a failing tool, the error analyzer, the failing
reflector and the echo tool. -/
def ctxFull : Ctx :=
  ⟨fun n =>
    if n = "bad" then some failTool
    else if n = "analyze_error" then some analyzerTool
    else if n = "reflect" then some reflectFailTool
    else if n = "echo" then some echoTool
    else none⟩

/-- The empty registry. -/
def ctxEmpty : Ctx := ⟨fun _ => none⟩

/-! ## Theorems -/

theorem executeInfo_fields (st : ExecState) (m : String) :
    (executeInfo st m).responses = st.responses
    ∧ (executeInfo st m).errors = st.errors
    ∧ (executeInfo st m).critical_failures = st.critical_failures
    ∧ (executeInfo st m).previous_outputs = st.previous_outputs := by
  simp [executeInfo, logEntry]

theorem executeToolCall_responses (ctx : Ctx) (st : ExecState) (name input : String) :
    (executeToolCall ctx st name input).responses = st.responses := by
  cases h : ctx.tools name <;> simp only [executeToolCall, h, logEntry] <;>
    repeat' (first | rfl | split)

theorem executeToolCall_errors_extends (ctx : Ctx) (st : ExecState) (name input : String) :
    ∃ l, (executeToolCall ctx st name input).errors = st.errors ++ l := by
  cases h : ctx.tools name <;> simp only [executeToolCall, h, logEntry] <;>
    repeat' (first | exact ⟨_, rfl⟩ | exact ⟨[], (List.append_nil _).symm⟩ | split)

theorem executeToolCall_critical_ge (ctx : Ctx) (st : ExecState) (name input : String) :
    st.critical_failures ≤ (executeToolCall ctx st name input).critical_failures := by
  cases h : ctx.tools name <;> simp only [executeToolCall, h, logEntry] <;>
    repeat' (first | exact le_rfl | exact Nat.le_succ _ | split)

theorem execGo_append (ctx : Ctx) (a b : List PlanStep) (st : ExecState) :
    execGo ctx (a ++ b) st = execGo ctx b (execGo ctx a st) := by
  induction a generalizing st with
  | nil => rfl
  | cons s rest ih =>
    cases s with
    | Info m => simp [execGo, ih]
    | ToolCall name input =>
      simp only [List.cons_append, execGo, popResponse]
      split <;> exact ih _

theorem executeToolCall_prev_unknown (ctx : Ctx) (st : ExecState) (name input : String)
    (h : ctx.tools name = none) :
    (executeToolCall ctx st name input).previous_outputs = st.previous_outputs := by
  simp [executeToolCall, h]

theorem executeToolCall_prev_fail (ctx : Ctx) (st : ExecState) (name input : String)
    (t : Tool) (h : ctx.tools name = some t)
    (hf : (t.run (resolveInput st.previous_outputs input)).success = false) :
    (executeToolCall ctx st name input).previous_outputs = st.previous_outputs := by
  simp only [executeToolCall, h, hf, logEntry, Bool.false_eq_true, if_false]
  repeat' (first | rfl | split)

theorem executeToolCall_prev_success_some (ctx : Ctx) (st : ExecState) (name input : String)
    (t : Tool) (o : String) (h : ctx.tools name = some t)
    (hs : (t.run (resolveInput st.previous_outputs input)).success = true)
    (ho : (t.run (resolveInput st.previous_outputs input)).output = some o) :
    (executeToolCall ctx st name input).previous_outputs = (name, o) :: st.previous_outputs := by
  simp [executeToolCall, h, hs, ho, logEntry]

theorem executeToolCall_prev_success_none (ctx : Ctx) (st : ExecState) (name input : String)
    (t : Tool) (h : ctx.tools name = some t)
    (hs : (t.run (resolveInput st.previous_outputs input)).success = true)
    (ho : (t.run (resolveInput st.previous_outputs input)).output = none) :
    (executeToolCall ctx st name input).previous_outputs = st.previous_outputs := by
  simp [executeToolCall, h, hs, ho, logEntry]

theorem execGo_errors_extends (ctx : Ctx) (steps : List PlanStep) (st : ExecState) :
    ∃ l, (execGo ctx steps st).errors = st.errors ++ l := by
  induction steps generalizing st with
  | nil => exact ⟨[], by simp [execGo]⟩
  | cons s rest ih =>
    cases s with
    | Info m =>
      obtain ⟨l, hl⟩ := ih (executeInfo st m)
      exact ⟨l, by simpa [execGo, (executeInfo_fields st m).2.1] using hl⟩
    | ToolCall name input =>
      simp only [execGo, popResponse]
      by_cases hskip : isSkip (st.responses.headD "") = true
      · simp only [hskip, if_true]
        obtain ⟨l, hl⟩ := ih { st with responses := st.responses.tail }
        exact ⟨l, hl⟩
      · simp only [eq_false_of_ne_true hskip, Bool.false_eq_true, if_false]
        obtain ⟨l1, hl1⟩ :=
          executeToolCall_errors_extends ctx { st with responses := st.responses.tail } name input
        obtain ⟨l2, hl2⟩ := ih (executeToolCall ctx { st with responses := st.responses.tail } name input)
        exact ⟨l1 ++ l2, by rw [hl2, hl1]; simp⟩

theorem execGo_critical_ge (ctx : Ctx) (steps : List PlanStep) (st : ExecState) :
    st.critical_failures ≤ (execGo ctx steps st).critical_failures := by
  induction steps generalizing st with
  | nil => simp [execGo]
  | cons s rest ih =>
    cases s with
    | Info m =>
      have h := ih (executeInfo st m)
      simpa [execGo, (executeInfo_fields st m).2.2.1] using h
    | ToolCall name input =>
      simp only [execGo, popResponse]
      by_cases hskip : isSkip (st.responses.headD "") = true
      · simp only [hskip, if_true]
        exact ih { st with responses := st.responses.tail }
      · simp only [eq_false_of_ne_true hskip, Bool.false_eq_true, if_false]
        exact le_trans
          (executeToolCall_critical_ge ctx { st with responses := st.responses.tail } name input)
          (ih _)

theorem alookup_append (key : String) (a b : List (String × String)) :
    alookup key (a ++ b) = (alookup key a).orElse (fun _ => alookup key b) := by
  induction a with
  | nil => simp [alookup]
  | cons p rest ih =>
    obtain ⟨n, o⟩ := p
    by_cases hn : n = key <;> simp [alookup, hn, ih]

theorem alookup_reverse_eq_mostRecent (key : String) (l : List (String × String)) :
    alookup key l.reverse = mostRecentCapture key l := by
  induction l with
  | nil => rfl
  | cons p rest ih =>
    obtain ⟨n, o⟩ := p
    rw [List.reverse_cons, alookup_append, ih]
    simp only [mostRecentCapture]
    cases mostRecentCapture key rest <;> simp [alookup]

theorem execGo_prev_eq_captureTrace (ctx : Ctx) (steps : List PlanStep) :
    ∀ (st : ExecState) (sofar : List (String × String)),
      st.previous_outputs = sofar.reverse →
      (execGo ctx steps st).previous_outputs
        = ((captureTrace ctx steps st.responses sofar).1).reverse := by
  induction steps with
  | nil => intro st sofar hprev; simpa [execGo, captureTrace]
  | cons s rest ih =>
    intro st sofar hprev
    cases s with
    | Info m =>
      simp only [execGo, captureTrace]
      exact ih (executeInfo st m) sofar (by rw [(executeInfo_fields st m).2.2.2]; exact hprev)
    | ToolCall name input =>
      simp only [execGo, captureTrace, popResponse]
      by_cases hskip : isSkip (st.responses.headD "") = true
      · simp only [hskip, if_true]
        exact ih { st with responses := st.responses.tail } sofar hprev
      · simp only [eq_false_of_ne_true hskip, Bool.false_eq_true, if_false]
        cases h : ctx.tools name with
        | none =>
          have hthis := ih (executeToolCall ctx { st with responses := st.responses.tail } name input)
            sofar (by rw [executeToolCall_prev_unknown _ _ _ _ h]; exact hprev)
          rwa [executeToolCall_responses] at hthis
        | some t =>
          have hres : resolveInput
              ({ st with responses := st.responses.tail } : ExecState).previous_outputs input
              = resolveInput sofar.reverse input := by
            show resolveInput st.previous_outputs input = _
            rw [hprev]
          cases hs : (t.run (resolveInput sofar.reverse input)).success with
          | false =>
            have hthis := ih (executeToolCall ctx { st with responses := st.responses.tail } name input)
              sofar (by
                rw [executeToolCall_prev_fail _ _ _ _ t h (by rw [hres]; exact hs)]
                exact hprev)
            rw [executeToolCall_responses] at hthis
            rw [hthis]
            simp [hs]
          | true =>
            cases ho : (t.run (resolveInput sofar.reverse input)).output with
            | none =>
              have hthis := ih (executeToolCall ctx { st with responses := st.responses.tail } name input)
                sofar (by
                  rw [executeToolCall_prev_success_none _ _ _ _ t h (by rw [hres]; exact hs)
                    (by rw [hres]; exact ho)]
                  exact hprev)
              rw [executeToolCall_responses] at hthis
              rw [hthis]
              simp [hs, ho]
            | some o =>
              have hthis := ih (executeToolCall ctx { st with responses := st.responses.tail } name input)
                (sofar ++ [(name, o)]) (by
                  rw [executeToolCall_prev_success_some _ _ _ _ t o h (by rw [hres]; exact hs)
                    (by rw [hres]; exact ho)]
                  show (name, o) :: st.previous_outputs = _
                  rw [hprev]
                  simp)
              rw [executeToolCall_responses] at hthis
              rw [hthis]
              simp [hs, ho]

theorem simulateNotRegistered_mem (ctx : Ctx) (name input : String)
    (steps : List PlanStep) (hmem : PlanStep.ToolCall name input ∈ steps)
    (hnone : ctx.tools name = none) :
    ("Tool '" ++ name ++ "' not registered") ∈ simulateNotRegistered ctx steps := by
  induction steps with
  | nil => cases hmem
  | cons s rest ih =>
    rcases List.mem_cons.mp hmem with heq | htail
    · rw [← heq]
      simp [simulateNotRegistered, hnone]
    · cases s with
      | Info m => simpa [simulateNotRegistered] using ih htail
      | ToolCall n i =>
        cases hn : ctx.tools n with
        | none =>
          simp only [simulateNotRegistered, hn]
          exact List.mem_cons_of_mem _ (ih htail)
        | some t => simpa [simulateNotRegistered, hn] using ih htail

/-- C1: For every Plan executed by the Execution Engine
(`BasicAgent::execute`), the returned `ExecutionResult` has
`success = true` exactly when the critical-failure count of the pass is
zero, its `output` is the trimmed accumulated output buffer, and its
`errors` is the accumulated error list; moreover (concrete instance) a
pass can end with `success = true` while non-critical failures populate
`errors`. -/
theorem execute_result_assembly :
    (∀ (ctx : Ctx) (plan : Plan) (rs : List String),
      (execute ctx plan rs).1.success
          = ((execGo ctx plan.steps (initState rs)).critical_failures == 0)
        ∧ (execute ctx plan rs).1.output
          = some (strTrim (execGo ctx plan.steps (initState rs)).combined_output)
        ∧ (execute ctx plan rs).1.errors = (execGo ctx plan.steps (initState rs)).errors)
    ∧ ∃ (ctx : Ctx) (plan : Plan) (rs : List String),
        (execute ctx plan rs).1.success = true ∧ (execute ctx plan rs).1.errors ≠ [] := by
  refine ⟨fun ctx plan rs => ⟨rfl, rfl, rfl⟩,
    ctxFull, ⟨[PlanStep.ToolCall "reflect" "x"]⟩, [""], ?_, ?_⟩ <;> decide

/-- C2: The criticality classification of the Execution Engine is total
and fixed: a failing invocation is critical exactly when the capability
is neither `reflect` nor `analyze_error`; a critical failure increments
the counter and, when `analyze_error` is registered and its run succeeds
with an output, logs that output under `error_analysis`; an unregistered
name always counts as critical. -/
theorem toolFailure_criticality :
    (∀ name : String, isCritical name = false ↔ (name = "reflect" ∨ name = "analyze_error"))
    ∧ (∀ (ctx : Ctx) (st : ExecState) (name input : String) (t : Tool),
        ctx.tools name = some t →
        (t.run (resolveInput st.previous_outputs input)).success = false →
        (executeToolCall ctx st name input).critical_failures
          = st.critical_failures + (if isCritical name then 1 else 0))
    ∧ (∀ (ctx : Ctx) (st : ExecState) (name input : String) (t a : Tool) (o : String),
        ctx.tools name = some t →
        (t.run (resolveInput st.previous_outputs input)).success = false →
        isCritical name = true →
        ctx.tools "analyze_error" = some a →
        (a.run ((t.run (resolveInput st.previous_outputs input)).error.getD "Unknown error")).success
          = true →
        (a.run ((t.run (resolveInput st.previous_outputs input)).error.getD "Unknown error")).output
          = some o →
        ("error_analysis", o) ∈ (executeToolCall ctx st name input).log)
    ∧ (∀ (ctx : Ctx) (st : ExecState) (name input : String),
        ctx.tools name = none →
        (executeToolCall ctx st name input).critical_failures = st.critical_failures + 1
          ∧ (executeToolCall ctx st name input).errors
              = st.errors ++ ["Tool not found: " ++ name]) := by
  refine ⟨?_, ?_, ?_, ?_⟩
  · intro name
    unfold isCritical
    split_ifs with h1 h2 h3 <;> simp_all
  · intro ctx st name input t h hf
    by_cases hc : isCritical name = true
    · simp only [executeToolCall, h, hf, hc, Bool.false_eq_true, if_false, if_true, logEntry]
      repeat' (first | rfl | split)
    · have hc' : isCritical name = false := eq_false_of_ne_true hc
      simp only [executeToolCall, h, hf, hc', Bool.false_eq_true, if_false, logEntry]
      simp
  · intro ctx st name input t a o h hf hc ha has hao
    simp only [executeToolCall, h, hf, hc, ha, has, hao, Bool.false_eq_true, if_false,
      if_true, logEntry]
    simp
  · intro ctx st name input h
    simp [executeToolCall, h]

/-- C2 witness: the failure paths evaluated at a concrete registry with a
failing tool and a registered analyzer, and at the empty registry. -/
theorem toolFailure_criticality_witness :
    (executeToolCall ctxFull (initState []) "bad" "x").critical_failures
        = 0 + (if isCritical "bad" then 1 else 0)
    ∧ ("error_analysis", "fix") ∈ (executeToolCall ctxFull (initState []) "bad" "x").log
    ∧ (executeToolCall ctxEmpty (initState []) "nope" "y").critical_failures = 0 + 1 :=
  ⟨toolFailure_criticality.2.1 ctxFull (initState []) "bad" "x" failTool rfl rfl,
   toolFailure_criticality.2.2.1 ctxFull (initState []) "bad" "x" failTool analyzerTool "fix"
     rfl rfl rfl rfl rfl rfl,
   (toolFailure_criticality.2.2.2 ctxEmpty (initState []) "nope" "y" rfl).1⟩

/-- C3: For every `ToolCall` input that is a whole `$output[x]` reference,
the Execution Engine resolves it against the chaining map of the pass so
far; that map is exactly the reversal of the pass's capture trace (which
records outputs of successful invocations only), so the lookup yields the
most recent output captured for `x`, and the literal
`(missing output for 'x')` when none exists.  Resolution is a total
function: it never fails or skips the step. -/
theorem outputReference_resolution :
    ∀ (ctx : Ctx) (steps1 : List PlanStep) (rs : List String) (input : String),
      strStartsWith input "$output[" = true →
      strEndsWith input "]" = true →
      (execGo ctx steps1 (initState rs)).previous_outputs
          = ((captureTrace ctx steps1 rs []).1).reverse
        ∧ resolveInput (execGo ctx steps1 (initState rs)).previous_outputs input
          = ((mostRecentCapture (strDropRight (strDrop input 8) 1)
                ((captureTrace ctx steps1 rs []).1)).getD
              ("(missing output for '" ++ strDropRight (strDrop input 8) 1 ++ "')")) := by
  intro ctx steps1 rs input h1 h2
  have hprev : (execGo ctx steps1 (initState rs)).previous_outputs
      = ((captureTrace ctx steps1 rs []).1).reverse :=
    execGo_prev_eq_captureTrace ctx steps1 (initState rs) [] rfl
  refine ⟨hprev, ?_⟩
  rw [resolveInput, hprev]
  simp only [h1, h2, Bool.and_self, if_true]
  rw [alookup_reverse_eq_mostRecent]
  cases hm : mostRecentCapture (strDropRight (strDrop input 8) 1)
      ((captureTrace ctx steps1 rs []).1) <;> simp [hm]

/-- C3 witness: after one successful `echo` invocation, `$output[echo]`
resolves through the capture trace; evaluated on a concrete registry. -/
theorem outputReference_resolution_witness :
    resolveInput
        (execGo ctxEcho [PlanStep.ToolCall "echo" "hi"] (initState ["", ""])).previous_outputs
        "$output[echo]"
      = ((mostRecentCapture (strDropRight (strDrop "$output[echo]" 8) 1)
            ((captureTrace ctxEcho [PlanStep.ToolCall "echo" "hi"] ["", ""] []).1)).getD
          ("(missing output for '" ++ strDropRight (strDrop "$output[echo]" 8) 1 ++ "')")) :=
  (outputReference_resolution ctxEcho [PlanStep.ToolCall "echo" "hi"] ["", ""] "$output[echo]"
    (by decide) (by decide)).2

/-- C10: output-reference substitution happens only when the entire input
is a single reference: an input that fails the starts-with/ends-with test
— in particular one that merely embeds a `$output[...]` token inside a
longer string — is passed to the capability verbatim. -/
theorem reference_substitution_requires_whole_input :
    ∀ (prev : List (String × String)) (input : String),
      (strStartsWith input "$output[" = false ∨ strEndsWith input "]" = false) →
      resolveInput prev input = input := by
  intro prev input h
  rcases h with h | h <;> simp [resolveInput, h]

/-- C10 witness: an input with an embedded reference token is passed
through unchanged even though the referenced capability has a captured
output. -/
theorem reference_substitution_requires_whole_input_witness :
    resolveInput [("echo", "Echoed: hi")] "see $output[echo] now" = "see $output[echo] now" :=
  reference_substitution_requires_whole_input [("echo", "Echoed: hi")] "see $output[echo] now"
    (Or.inr (by decide))

/-- C5 counterexample: for an unregistered `ToolCall` name, the code's
simulation warning is `Tool 'build_docs' not registered` and the
execution error is `Tool not found: build_docs` — the claim's quoted
strings `capability 'build_docs' not registered` and
`capability not found: build_docs` never appear. -/
theorem unregistered_capability_strings_counterexample :
    ("capability 'build_docs' not registered"
        ∉ (simulate ctxEmpty ⟨[PlanStep.ToolCall "build_docs" "x"]⟩).warnings)
    ∧ (simulate ctxEmpty ⟨[PlanStep.ToolCall "build_docs" "x"]⟩).warnings
        = ["Tool 'build_docs' not registered"]
    ∧ ("capability not found: build_docs"
        ∉ (execute ctxEmpty ⟨[PlanStep.ToolCall "build_docs" "x"]⟩ [""]).1.errors)
    ∧ (execute ctxEmpty ⟨[PlanStep.ToolCall "build_docs" "x"]⟩ [""]).1.errors
        = ["Tool not found: build_docs"]
    ∧ (execute ctxEmpty ⟨[PlanStep.ToolCall "build_docs" "x"]⟩ [""]).1.success = false := by
  decide

/-- C5 amended: for every `ToolCall` step whose name is not registered,
simulation appends the warning `Tool '<name>' not registered` and
execution (when the step is confirmed) appends the error
`Tool not found: <name>` and yields `success = false` for the pass. -/
theorem unregistered_capability_simulation_and_execution :
    ∀ (ctx : Ctx) (name input : String) (plan : Plan) (steps1 steps2 : List PlanStep)
      (rs : List String),
      ctx.tools name = none →
      plan.steps = steps1 ++ PlanStep.ToolCall name input :: steps2 →
      ("Tool '" ++ name ++ "' not registered") ∈ (simulate ctx plan).warnings
        ∧ (isSkip ((execGo ctx steps1 (initState rs)).responses.headD "") = false →
            ("Tool not found: " ++ name) ∈ (execute ctx plan rs).1.errors
              ∧ (execute ctx plan rs).1.success = false) := by
  intro ctx name input plan steps1 steps2 rs hnone hsteps
  constructor
  · have hmem : PlanStep.ToolCall name input ∈ plan.steps := by
      rw [hsteps]; exact List.mem_append.mpr (Or.inr (List.mem_cons_self _ _))
    exact List.mem_append.mpr (Or.inl (simulateNotRegistered_mem ctx name input plan.steps hmem hnone))
  · intro hskip
    have hsplit : execGo ctx plan.steps (initState rs)
        = execGo ctx steps2
            (executeToolCall ctx
              { execGo ctx steps1 (initState rs) with
                responses := (execGo ctx steps1 (initState rs)).responses.tail } name input) := by
      rw [hsteps, execGo_append]
      simp only [execGo, popResponse, hskip, Bool.false_eq_true, if_false]
    have herr2 : (executeToolCall ctx
        { execGo ctx steps1 (initState rs) with
          responses := (execGo ctx steps1 (initState rs)).responses.tail } name input).errors
        = (execGo ctx steps1 (initState rs)).errors ++ ["Tool not found: " ++ name] := by
      simp [executeToolCall, hnone]
    have hcrit2 : 1 ≤ (executeToolCall ctx
        { execGo ctx steps1 (initState rs) with
          responses := (execGo ctx steps1 (initState rs)).responses.tail } name input).critical_failures := by
      simp [executeToolCall, hnone]
    obtain ⟨l, hl⟩ := execGo_errors_extends ctx steps2
      (executeToolCall ctx
        { execGo ctx steps1 (initState rs) with
          responses := (execGo ctx steps1 (initState rs)).responses.tail } name input)
    have hge := execGo_critical_ge ctx steps2
      (executeToolCall ctx
        { execGo ctx steps1 (initState rs) with
          responses := (execGo ctx steps1 (initState rs)).responses.tail } name input)
    constructor
    · show ("Tool not found: " ++ name) ∈ (execGo ctx plan.steps (initState rs)).errors
      rw [hsplit, hl, herr2]
      simp
    · show ((execGo ctx plan.steps (initState rs)).critical_failures == 0) = false
      have hpos : 0 < (execGo ctx plan.steps (initState rs)).critical_failures := by
        rw [hsplit]
        exact lt_of_lt_of_le hcrit2 hge
      simp only [beq_eq_false_iff_ne, ne_eq]
      omega

/-- C5 amended witness: the unregistered-name warning and error evaluated
at a concrete plan against the empty registry. -/
theorem unregistered_capability_simulation_and_execution_witness :
    ("Tool '" ++ "build_docs" ++ "' not registered")
        ∈ (simulate ctxEmpty ⟨[PlanStep.ToolCall "build_docs" "x"]⟩).warnings
    ∧ ("Tool not found: " ++ "build_docs")
        ∈ (execute ctxEmpty ⟨[PlanStep.ToolCall "build_docs" "x"]⟩ [""]).1.errors
    ∧ (execute ctxEmpty ⟨[PlanStep.ToolCall "build_docs" "x"]⟩ [""]).1.success = false := by
  have h := unregistered_capability_simulation_and_execution ctxEmpty "build_docs" "x"
    ⟨[PlanStep.ToolCall "build_docs" "x"]⟩ [] [] [""] rfl rfl
  exact ⟨h.1, (h.2 (by decide)).1, (h.2 (by decide)).2⟩

/-- C4 counterexample: the follow-up phase of `main` replans even after a
successful pass, and takes the reflection text from the first `reflect`
entry, not from `error_analysis` and not from the most recent `reflect`
entry. -/
theorem orchestration_replans_after_success_counterexample :
    (⟨true, some "", []⟩ : ExecutionResult).success = true
    ∧ orchestrationReplanAttempt ⟨true, some "", []⟩
        [("error_analysis", "ea"), ("reflect", "r1"), ("reflect", "r2")] = some "r1" := by
  exact ⟨rfl, rfl⟩

/-- C4 amended: the follow-up phase never inspects the preceding
`ExecutionResult`; replanning is attempted exactly when the memory log
holds a `reflect` entry, with the content of the earliest such entry,
and `error_analysis` entries are not consulted; `BasicAgent::replan`
yields a plan only when a replanner is configured and the generated plan
is non-empty. -/
theorem orchestration_replan_source :
    (∀ (res res' : ExecutionResult) (mem : List (String × String)),
        orchestrationReplanAttempt res mem = orchestrationReplanAttempt res' mem)
    ∧ (∀ (res : ExecutionResult) (mem : List (String × String)),
        (∀ e ∈ mem, e.1 ≠ "reflect") → orchestrationReplanAttempt res mem = none)
    ∧ (∀ (res : ExecutionResult) (pre post : List (String × String)) (r : String),
        (∀ e ∈ pre, e.1 ≠ "reflect") →
        orchestrationReplanAttempt res (pre ++ ("reflect", r) :: post) = some r)
    ∧ (∀ (gen : String → Plan) (reflection : String),
        replan (some gen) reflection
          = if (gen reflection).steps.isEmpty then none else some (gen reflection))
    ∧ (∀ reflection : String, replan none reflection = none) := by
  refine ⟨fun res res' mem => rfl, ?_, ?_, ?_, fun reflection => rfl⟩
  · intro res mem h
    have hf : List.find? (fun e => e.1 == "reflect") mem = none :=
      List.find?_eq_none.mpr fun x hx => by simpa using h x hx
    simp [orchestrationReplanAttempt, mainReflectionSource, hf]
  · intro res pre post r h
    induction pre with
    | nil =>
      simp [orchestrationReplanAttempt, mainReflectionSource, List.find?]
    | cons e pre' ih =>
      have hne : (e.1 == "reflect") = false := by
        simpa using h e (List.mem_cons_self _ _)
      simp only [orchestrationReplanAttempt, mainReflectionSource, List.cons_append,
        List.find?] at ih ⊢
      rw [hne]
      exact ih fun x hx => h x (List.mem_cons_of_mem _ hx)
  · intro gen reflection
    cases h : (gen reflection).steps.isEmpty <;> simp [replan, h]

/-- C4 amended witness: the follow-up decision evaluated at concrete
memory logs, with and without a `reflect` entry. -/
theorem orchestration_replan_source_witness :
    orchestrationReplanAttempt ⟨false, none, []⟩ [("info", "x")] = none
    ∧ orchestrationReplanAttempt ⟨true, none, []⟩ [("info", "x"), ("reflect", "r")] = some "r"
    ∧ replan none "r" = none :=
  ⟨orchestration_replan_source.2.1 ⟨false, none, []⟩ [("info", "x")] (by decide),
   orchestration_replan_source.2.2.1 ⟨true, none, []⟩ [("info", "x")] [] "r" (by decide),
   orchestration_replan_source.2.2.2.2 "r"⟩

/-- C9: any step of type `tool` carrying a string name and a string input
containing both `<` and `>` always contributes a `ToolInputMismatch`
warning (the spec's `CapabilityInputMismatch`), whether or not the name
is registered; and `validate_plan` is a pure accumulator: the warnings of
a concatenation are the concatenation of the warnings. -/
theorem validator_placeholder_mismatch :
    (∀ (plan : List Json) (reg : List String) (step : Json) (name input : String),
      step ∈ plan →
      step.get "type" = some (.str "tool") →
      (step.get "name").bind Json.asStr = some name →
      (step.get "input").bind Json.asStr = some input →
      strContainsChar input '<' = true →
      strContainsChar input '>' = true →
      PlanValidationError.ToolInputMismatch name "Input contains placeholder like <file>"
        ∈ validate_plan plan reg)
    ∧ (∀ (a b : List Json) (reg : List String),
        validate_plan (a ++ b) reg = validate_plan a reg ++ validate_plan b reg) := by
  have happ : ∀ (a b : List Json) (reg : List String),
      validate_plan (a ++ b) reg = validate_plan a reg ++ validate_plan b reg := by
    intro a b reg
    induction a with
    | nil => simp [validate_plan]
    | cons s rest ih => simp [validate_plan, ih]
  refine ⟨?_, happ⟩
  intro plan reg step name input hmem htype hname hinput hlt hgt
  have hts : (Json.str "tool").asStr = some "tool" := rfl
  have hstep : PlanValidationError.ToolInputMismatch name "Input contains placeholder like <file>"
      ∈ stepErrors reg step := by
    simp only [stepErrors, htype, hts, hname, hinput]
    simp [hlt, hgt]
  induction plan with
  | nil => cases hmem
  | cons s rest ih =>
    rcases List.mem_cons.mp hmem with rfl | htail
    · simp only [validate_plan]
      exact List.mem_append.mpr (Or.inl hstep)
    · simp only [validate_plan]
      exact List.mem_append.mpr (Or.inr (ih htail))

/-- C9 witness: a placeholder input on an unregistered tool name produces
the mismatch warning, evaluated on a concrete document. -/
theorem validator_placeholder_mismatch_witness :
    PlanValidationError.ToolInputMismatch "deploy" "Input contains placeholder like <file>"
      ∈ validate_plan
          [Json.obj [("type", Json.str "tool"), ("name", Json.str "deploy"),
            ("input", Json.str "<file>")]]
          registeredToolsList :=
  validator_placeholder_mismatch.1 _ registeredToolsList _ "deploy" "<file>"
    (List.mem_singleton.mpr rfl) rfl rfl rfl (by decide) (by decide)

theorem json_get_some_isObj (e : Json) (k : String) (v : Json) (h : e.get k = some v) :
    ∃ fields, e = .obj fields := by
  cases e <;> first
    | exact ⟨_, rfl⟩
    | simp [Json.get] at h

theorem decodePlannerStep_wire (e : Json) (hw : isWireToolElem e ∨ isWireInfoElem e) :
    ∃ p, decodePlannerStep e = some p ∧ stepCorresponds e (plannerStepToPlanStep p) := by
  rcases hw with ⟨htype, ⟨n, hname⟩, hinput⟩ | ⟨htype, ⟨m, hmsg⟩⟩
  · obtain ⟨fields, rfl⟩ := json_get_some_isObj e "type" _ htype
    simp only [Json.get] at htype hname hinput
    rcases hinput with hinput | ⟨s, hinput⟩
    · refine ⟨.Tool n none, by simp [decodePlannerStep, htype, hname, hinput], ?_, ?_⟩
      · intro n' h1 h2
        simp only [Json.get, hname, Option.some.injEq, Json.str.injEq] at h2
        subst h2
        refine ⟨fun s' hs' => ?_, fun _ => rfl⟩
        rw [show (Json.obj fields).get "input" = getField fields "input" from rfl, hinput] at hs'
        exact Option.noConfusion hs' 
      · intro m h1 h2
        rw [show (Json.obj fields).get "type" = getField fields "type" from rfl, htype] at h1
        simp at h1
    · refine ⟨.Tool n (some s), by simp [decodePlannerStep, htype, hname, hinput], ?_, ?_⟩
      · intro n' h1 h2
        simp only [Json.get, hname, Option.some.injEq, Json.str.injEq] at h2
        subst h2
        constructor
        · intro s' hs'
          simp only [Json.get, hinput, Option.some.injEq, Json.str.injEq] at hs'
          subst hs'
          rfl
        · intro habs
          rw [show (Json.obj fields).get "input" = getField fields "input" from rfl, hinput] at habs
          exact Option.noConfusion habs
      · intro m h1 h2
        rw [show (Json.obj fields).get "type" = getField fields "type" from rfl, htype] at h1
        simp at h1
  · obtain ⟨fields, rfl⟩ := json_get_some_isObj e "type" _ htype
    simp only [Json.get] at htype hmsg
    refine ⟨.Info m, by simp [decodePlannerStep, htype, hmsg], ?_, ?_⟩
    · intro n' h1 h2
      rw [show (Json.obj fields).get "type" = getField fields "type" from rfl, htype] at h1
      simp at h1
    · intro m' h1 h2
      simp only [Json.get, hmsg, Option.some.injEq, Json.str.injEq] at h2
      subst h2
      rfl

/-- C7: every wire-format document element list of the plan shape decodes
(via the serde model) to the same number of steps in the same order, each
tool element to `ToolCall` with the same name and input (empty input when
the field is absent) and each info element to `Info` with the same
message. -/
theorem wire_format_decode_preserves_steps :
    ∀ es : List Json, (∀ e ∈ es, isWireToolElem e ∨ isWireInfoElem e) →
      ∃ ps, decodePlannerSteps es = some ps
        ∧ (ps.map plannerStepToPlanStep).length = es.length
        ∧ List.Forall₂ stepCorresponds es (ps.map plannerStepToPlanStep) := by
  intro es h
  induction es with
  | nil => exact ⟨[], rfl, rfl, List.Forall₂.nil⟩
  | cons e rest ih =>
    obtain ⟨p, hp, hc⟩ := decodePlannerStep_wire e (h e (List.mem_cons_self _ _))
    obtain ⟨ps, hps, hlen, hcs⟩ := ih fun x hx => h x (List.mem_cons_of_mem _ hx)
    refine ⟨p :: ps, ?_, ?_, List.Forall₂.cons hc hcs⟩
    · simp [decodePlannerSteps, hp, hps]
    · simpa using hlen

/-- C7 witness: a three-element wire document (tool with input, tool
without input, info) decodes with order and content preserved. -/
theorem wire_format_decode_preserves_steps_witness :
    ∃ ps, decodePlannerSteps
        [Json.obj [("type", Json.str "tool"), ("name", Json.str "run_command"),
           ("input", Json.str "git add .")],
         Json.obj [("type", Json.str "tool"), ("name", Json.str "reflect")],
         Json.obj [("type", Json.str "info"), ("message", Json.str "done")]] = some ps
      ∧ (ps.map plannerStepToPlanStep).length = 3
      ∧ List.Forall₂ stepCorresponds
          [Json.obj [("type", Json.str "tool"), ("name", Json.str "run_command"),
             ("input", Json.str "git add .")],
           Json.obj [("type", Json.str "tool"), ("name", Json.str "reflect")],
           Json.obj [("type", Json.str "info"), ("message", Json.str "done")]]
          (ps.map plannerStepToPlanStep) := by
  have h := wire_format_decode_preserves_steps
    [Json.obj [("type", Json.str "tool"), ("name", Json.str "run_command"),
       ("input", Json.str "git add .")],
     Json.obj [("type", Json.str "tool"), ("name", Json.str "reflect")],
     Json.obj [("type", Json.str "info"), ("message", Json.str "done")]]
    (by
      intro e he
      simp only [List.mem_cons, List.not_mem_nil, or_false] at he
      rcases he with rfl | rfl | rfl
      · exact Or.inl ⟨rfl, ⟨"run_command", rfl⟩, Or.inr ⟨"git add .", rfl⟩⟩
      · exact Or.inl ⟨rfl, ⟨"reflect", rfl⟩, Or.inl rfl⟩
      · exact Or.inr ⟨rfl, ⟨"done", rfl⟩⟩)
  exact h

/-- C6: plan acquisition and replanning never propagate an error outward:
a backend failure, an unparsable (or missing) JSON block, and a
typed-conversion failure each produce a Plan of exactly one `Info` step
describing the failure, while a successful parse and conversion produces
the decoded steps unconditionally — validation warnings never influence
the result. -/
theorem acquisition_recovers_locally :
    ∀ res : ToolResult,
      (res.success = false →
        (generate_plan res).steps = [.Info "Planner LLM failed."]
          ∧ (generate_followup_plan res).steps = [.Info "Replanner LLM failed."])
      ∧ (res.success = true →
          (parseJson (extractRepairedPlanJson (res.output.getD "")) = none →
            (generate_plan res).steps = [.Info "Failed to parse structured plan."]
              ∧ (generate_followup_plan res).steps = [.Info "Failed to parse replanned output."])
          ∧ (∀ v, parseJson (extractRepairedPlanJson (res.output.getD "")) = some v →
              (decodePlannerResponse v = none →
                (generate_plan res).steps = [.Info "Planner JSON parse error."]
                  ∧ (generate_followup_plan res).steps = [.Info "Replanner JSON parse error."])
                ∧ (∀ steps, decodePlannerResponse v = some steps →
                    (generate_plan res).steps = steps.map plannerStepToPlanStep
                      ∧ (generate_followup_plan res).steps = steps.map plannerStepToPlanStep))) := by
  intro res
  refine ⟨fun hs => ?_, fun hs => ⟨fun hp => ?_, fun v hv => ⟨fun hd => ?_, fun steps hds => ?_⟩⟩⟩
  · constructor <;> simp [generate_plan, generate_followup_plan, hs]
  · constructor <;> simp [generate_plan, generate_followup_plan, hs, hp]
  · constructor <;> simp [generate_plan, generate_followup_plan, hs, hv, hd]
  · constructor <;> simp [generate_plan, generate_followup_plan, hs, hv, hds]

/-- C6 witness: the four recovery paths evaluated at concrete backend
results — a failed call, output with no extractable JSON, a document that
parses but fails typed conversion, and a fully valid document. -/
theorem acquisition_recovers_locally_witness :
    (generate_plan ⟨false, some "x", none⟩).steps = [.Info "Planner LLM failed."]
    ∧ (generate_plan ⟨true, some "no plan here", none⟩).steps
        = [.Info "Failed to parse structured plan."]
    ∧ (generate_plan ⟨true, some "\x7b\"plan\": [\x7b\"type\": \"tool\"\x7d]\x7d", none⟩).steps
        = [.Info "Planner JSON parse error."]
    ∧ (generate_followup_plan
          ⟨true, some "\x7b\"plan\": [\x7b\"type\": \"info\", \"message\": \"done\"\x7d]\x7d", none⟩).steps
        = [PlannerStep.Info "done"].map plannerStepToPlanStep :=
  ⟨((acquisition_recovers_locally ⟨false, some "x", none⟩).1 rfl).1,
   (((acquisition_recovers_locally ⟨true, some "no plan here", none⟩).2 rfl).1 rfl).1,
   ((((acquisition_recovers_locally
        ⟨true, some "\x7b\"plan\": [\x7b\"type\": \"tool\"\x7d]\x7d", none⟩).2 rfl).2
      (Json.obj [("plan", Json.arr [Json.obj [("type", Json.str "tool")]])]) rfl).1 rfl).1,
   ((((acquisition_recovers_locally
        ⟨true, some "\x7b\"plan\": [\x7b\"type\": \"info\", \"message\": \"done\"\x7d]\x7d", none⟩).2
          rfl).2
      (Json.obj [("plan",
        Json.arr [Json.obj [("type", Json.str "info"), ("message", Json.str "done")]])]) rfl).2
      [PlannerStep.Info "done"] rfl).2⟩

theorem listContainsSub_of_isPrefixOf (pat cs : List Char)
    (h : pat.isPrefixOf cs = true) : listContainsSub pat cs = true := by
  cases cs with
  | nil => simpa [listContainsSub] using h
  | cons c rest => simp [listContainsSub, h]

theorem replaceSeg_fuel_irrel (pat repl : List Char) (hpat : pat ≠ []) :
    ∀ (f1 : Nat) (cs : List Char) (f2 : Nat), cs.length < f1 → cs.length < f2 →
      replaceSeg pat repl f1 cs = replaceSeg pat repl f2 cs := by
  intro f1
  induction f1 with
  | zero => intro cs f2 h1 h2; omega
  | succ n ih =>
    intro cs f2 h1 h2
    cases f2 with
    | zero => omega
    | succ m =>
      have hp1 : 1 ≤ pat.length := by
        cases pat with
        | nil => exact absurd rfl hpat
        | cons _ _ => simp
      cases cs with
      | nil =>
        cases pat with
        | nil => exact absurd rfl hpat
        | cons p ps => simp [replaceSeg, List.isPrefixOf]
      | cons c rest =>
        by_cases hp : pat.isPrefixOf (c :: rest) = true
        · have hple : pat.length ≤ (c :: rest).length :=
            (List.isPrefixOf_iff_prefix.mp hp).length_le
          simp only [replaceSeg, hp, if_true]
          rw [ih ((c :: rest).drop pat.length) m
            (by simp only [List.length_drop, List.length_cons] at *; omega)
            (by simp only [List.length_drop, List.length_cons] at *; omega)]
        · simp only [replaceSeg, eq_false_of_ne_true hp, Bool.false_eq_true, if_false]
          rw [ih rest m (by simp only [List.length_cons] at h1; omega)
            (by simp only [List.length_cons] at h2; omega)]

theorem replaceSeg_of_not_contains (pat repl : List Char) (hpat : pat ≠ []) :
    ∀ (cs : List Char) (f : Nat), cs.length < f → listContainsSub pat cs = false →
      replaceSeg pat repl f cs = cs := by
  intro cs
  induction cs with
  | nil =>
    intro f hf hc
    cases f with
    | zero => omega
    | succ n =>
      simp only [listContainsSub] at hc
      simp only [replaceSeg, hc, Bool.false_eq_true, if_false]
  | cons c rest ih =>
    intro f hf hc
    cases f with
    | zero => omega
    | succ n =>
      simp only [listContainsSub, Bool.or_eq_false_iff] at hc
      simp only [replaceSeg, hc.1, Bool.false_eq_true, if_false]
      rw [ih n (by simp only [List.length_cons] at hf; omega) hc.2]

theorem replaceSeg_leftmost (pat repl : List Char) (hpat : pat ≠ []) :
    ∀ (pre post : List Char) (f : Nat),
      (pre ++ pat ++ post).length < f →
      listContainsSub pat (pre ++ pat.dropLast) = false →
      replaceSeg pat repl f (pre ++ pat ++ post)
        = pre ++ repl ++ replaceSeg pat repl (post.length + 1) post := by
  intro pre
  induction pre with
  | nil =>
    intro post f hf hc
    cases f with
    | zero => omega
    | succ n =>
      have hp1 : 1 ≤ pat.length := by
        cases pat with
        | nil => exact absurd rfl hpat
        | cons _ _ => simp
      have hp : pat.isPrefixOf (pat ++ post) = true :=
        List.isPrefixOf_iff_prefix.mpr (List.prefix_append _ _)
      have hf' : post.length < n := by
        simp only [List.nil_append, List.length_append] at hf
        omega
      rw [List.nil_append]
      conv_lhs => simp only [replaceSeg]
      rw [if_pos hp, List.drop_left,
        replaceSeg_fuel_irrel pat repl hpat n post (post.length + 1) hf' (by omega)]
      simp
  | cons c pre' ih =>
    intro post f hf hc
    cases f with
    | zero => omega
    | succ n =>
      have hp1 : 1 ≤ pat.length := by
        cases pat with
        | nil => exact absurd rfl hpat
        | cons _ _ => simp
      simp only [List.cons_append] at hc
      have hcsplit : pat.isPrefixOf (c :: (pre' ++ pat.dropLast)) = false ∧
          listContainsSub pat (pre' ++ pat.dropLast) = false := by
        simpa [listContainsSub, Bool.or_eq_false_iff] using hc
      have hnp : pat.isPrefixOf (c :: (pre' ++ (pat ++ post))) = false := by
        cases hcase : pat.isPrefixOf (c :: (pre' ++ (pat ++ post))) with
        | false => rfl
        | true =>
          exfalso
          have hpre : pat <+: c :: (pre' ++ (pat ++ post)) :=
            List.isPrefixOf_iff_prefix.mp hcase
          have htake : pat = (c :: (pre' ++ (pat ++ post))).take pat.length :=
            List.prefix_iff_eq_take.mp hpre
          have hsplit : c :: (pre' ++ (pat ++ post))
              = (c :: (pre' ++ pat.dropLast)) ++ (pat.getLast hpat :: post) := by
            conv_lhs => rw [show pat = pat.dropLast ++ [pat.getLast hpat] from
              (List.dropLast_append_getLast hpat).symm]
            simp
          have hle : pat.length ≤ (c :: (pre' ++ pat.dropLast)).length := by
            simp only [List.length_cons, List.length_append, List.length_dropLast]
            omega
          have htake2 : pat = (c :: (pre' ++ pat.dropLast)).take pat.length := by
            conv_lhs => rw [htake]
            rw [hsplit, List.take_append_of_le_length hle]
          have hmem : listContainsSub pat (c :: (pre' ++ pat.dropLast)) = true :=
            listContainsSub_of_isPrefixOf _ _
              (List.isPrefixOf_iff_prefix.mpr (List.prefix_iff_eq_take.mpr htake2))
          rw [hc] at hmem
          exact Bool.false_ne_true hmem
      have hf' : (pre' ++ pat ++ post).length < n := by
        simp only [List.cons_append, List.length_cons, List.length_append] at hf
        simp only [List.length_append]
        omega
      rw [show (c :: pre') ++ pat ++ post = c :: (pre' ++ (pat ++ post)) from by simp]
      conv_lhs => simp only [replaceSeg]
      rw [if_neg (by simp [hnp])]
      show c :: replaceSeg pat repl n (pre' ++ (pat ++ post))
        = (c :: pre') ++ repl ++ replaceSeg pat repl (post.length + 1) post
      rw [show pre' ++ (pat ++ post) = pre' ++ pat ++ post from
        (List.append_assoc _ _ _).symm]
      rw [ih post n hf' hcsplit.2]
      simp

theorem commentLen_bounds (cs : List Char) (k : Nat) (h : commentLen cs = some k) :
    1 ≤ k ∧ k ≤ cs.length := by
  unfold commentLen at h
  split at h
  next n1 r heq =>
    dsimp only at h
    split at h
    next r2 heq2 =>
      have hk := Option.some.inj h
      have hrel : n1 + r.length = cs.length := by
        split at heq
        next tail =>
          obtain ⟨h1a, h1b⟩ := (Prod.mk.injEq _ _ _ _).mp heq
          subst h1b
          subst h1a
          simp only [List.length_cons]
          omega
        next =>
          have h1 := (Prod.mk.injEq _ _ _ _).mp heq
          obtain ⟨h1a, h1b⟩ := h1
          subst h1b
          omega
      have hw : (r.takeWhile isRegexWs).length ≤ r.length :=
        (List.takeWhile_sublist _).length_le
      have hr2 : (r2.takeWhile (fun c => !(c = '\n' || c = '\r'))).length ≤ r2.length :=
        (List.takeWhile_sublist _).length_le
      have hlen := congrArg List.length heq2
      simp only [List.length_drop, List.length_cons] at hlen
      omega
    next => exact Option.noConfusion h

theorem stripCommentsAux_fuel_irrel :
    ∀ (f1 : Nat) (cs : List Char) (f2 : Nat), cs.length < f1 → cs.length < f2 →
      stripCommentsAux f1 cs = stripCommentsAux f2 cs := by
  intro f1
  induction f1 with
  | zero => intro cs f2 h1 h2; omega
  | succ n ih =>
    intro cs f2 h1 h2
    cases f2 with
    | zero => omega
    | succ m =>
      cases hcl : commentLen cs with
      | some k =>
        obtain ⟨hk1, hk2⟩ := commentLen_bounds cs k hcl
        have lhs : stripCommentsAux (n + 1) cs = stripCommentsAux n (cs.drop k) := by
          conv_lhs => simp only [stripCommentsAux]
          rw [hcl]
        have rhs : stripCommentsAux (m + 1) cs = stripCommentsAux m (cs.drop k) := by
          conv_lhs => simp only [stripCommentsAux]
          rw [hcl]
        rw [lhs, rhs,
          ih (cs.drop k) m (by simp only [List.length_drop]; omega)
            (by simp only [List.length_drop]; omega)]
      | none =>
        cases cs with
        | nil =>
          show stripCommentsAux (n + 1) [] = stripCommentsAux (m + 1) []
          simp only [stripCommentsAux, hcl]
        | cons c rest =>
          have lhs : stripCommentsAux (n + 1) (c :: rest)
              = c :: stripCommentsAux n rest := by
            conv_lhs => simp only [stripCommentsAux]
            rw [hcl]
          have rhs : stripCommentsAux (m + 1) (c :: rest)
              = c :: stripCommentsAux m rest := by
            conv_lhs => simp only [stripCommentsAux]
            rw [hcl]
          rw [lhs, rhs, ih rest m (by simp only [List.length_cons] at h1; omega)
            (by simp only [List.length_cons] at h2; omega)]

theorem stripCommentsAux_no_comment :
    ∀ (cs : List Char) (f : Nat), cs.length < f →
      (∀ i : Nat, commentLen (cs.drop i) = none) → stripCommentsAux f cs = cs := by
  intro cs
  induction cs with
  | nil =>
    intro f hf h
    cases f with
    | zero => omega
    | succ n =>
      have h0 : commentLen ([] : List Char) = none := h 0
      simp only [stripCommentsAux, h0]
  | cons c rest ih =>
    intro f hf h
    cases f with
    | zero => omega
    | succ n =>
      have h0 : commentLen (c :: rest) = none := h 0
      have lhs : stripCommentsAux (n + 1) (c :: rest)
          = c :: stripCommentsAux n rest := by
        conv_lhs => simp only [stripCommentsAux]
        rw [h0]
      rw [lhs, ih n (by simp only [List.length_cons] at hf; omega) (fun i => h (i + 1))]

theorem stripCommentsAux_leftmost :
    ∀ (pre rest : List Char) (k : Nat) (f : Nat),
      (pre ++ rest).length < f →
      (∀ i : Nat, i < pre.length → commentLen ((pre ++ rest).drop i) = none) →
      commentLen rest = some k →
      stripCommentsAux f (pre ++ rest)
        = pre ++ stripCommentsAux ((rest.drop k).length + 1) (rest.drop k) := by
  intro pre
  induction pre with
  | nil =>
    intro rest k f hf hnone hk
    cases f with
    | zero => omega
    | succ n =>
      obtain ⟨hk1, hk2⟩ := commentLen_bounds rest k hk
      rw [List.nil_append]
      have lhs : stripCommentsAux (n + 1) rest = stripCommentsAux n (rest.drop k) := by
        conv_lhs => simp only [stripCommentsAux]
        rw [hk]
      rw [lhs,
        stripCommentsAux_fuel_irrel n (rest.drop k) ((rest.drop k).length + 1)
          (by simp only [List.nil_append, List.length_drop] at hf ⊢; omega) (by omega)]
      simp
  | cons c pre' ih =>
    intro rest k f hf hnone hk
    cases f with
    | zero => omega
    | succ n =>
      have h0 : commentLen (c :: (pre' ++ rest)) = none := by
        have := hnone 0 (by simp)
        simpa using this
      rw [List.cons_append]
      have lhs : stripCommentsAux (n + 1) (c :: (pre' ++ rest))
          = c :: stripCommentsAux n (pre' ++ rest) := by
        conv_lhs => simp only [stripCommentsAux]
        rw [h0]
      rw [lhs, ih rest k n
        (by simp only [List.cons_append, List.length_cons] at hf; omega)
        (fun i hi => by
          have := hnone (i + 1) (by simp only [List.length_cons]; omega)
          simpa using this) hk]
      simp

/-- C8 counterexample: `git_status` is a capability registered by `main`,
yet the bare `{"type": "git_status"}` spelling survives the whole repair
pipeline unchanged — the wrapper rewrite is not driven by the registry. -/
theorem format_repair_ignores_registry_counterexample :
    "git_status" ∈ mainRegistryToolNames
    ∧ fixInvalidTypes (stripComments (autoFixTypes "\x7b\"type\": \"git_status\"\x7d"))
        = "\x7b\"type\": \"git_status\"\x7d"
    ∧ "\x7b\"type\": \"git_status\"\x7d"
        ≠ "\x7b\"type\": \"tool\", \"name\": \"git_status\"\x7d" := by
  refine ⟨by decide, by decide, by decide⟩

/-- C8 amended: during plan acquisition and replanning the extracted
plan block is repaired by exactly three passes — the tool-wrapper
rewrite for the fixed names run_command, reflect and analyze_error
hardcoded in the planner and replanner (not the capability registry),
a comment-stripping pass, and the rewrite of the five disallowed
step-type tokens to info — and each replace pass rewrites every
occurrence of its pattern: on any input split as pre ++ pattern ++ post
with no occurrence starting inside pre, the occurrence is replaced and
the pass recurses on post, while an input with no occurrence at all is
returned unchanged; likewise the comment pass removes each leftmost
comment-regex match in arbitrary context and leaves match-free text
unchanged. -/
theorem format_repair_fixed_rewrites :
    (∀ raw : String, extractRepairedPlanJson raw
        = fixInvalidTypes (stripComments (autoFixTypes
            ((findPlanJson (cleanedPlannerText raw)).getD ""))))
    ∧ (∀ s : String, autoFixTypes s
        = strReplace (strReplace (strReplace s
            (typePat "run_command") (toolWrapRepl "run_command"))
            (typePat "reflect") (toolWrapRepl "reflect"))
            (typePat "analyze_error") (toolWrapRepl "analyze_error"))
    ∧ (∀ s : String, fixInvalidTypes s
        = strReplace (strReplace (strReplace (strReplace (strReplace s
            (typePat "condition") infoTypeRepl)
            (typePat "check") infoTypeRepl)
            (typePat "validate") infoTypeRepl)
            (typePat "if") infoTypeRepl)
            (typePat "when") infoTypeRepl)
    ∧ (∀ (pat repl s : String) (pre post : List Char), pat.data ≠ [] →
        s.data = pre ++ pat.data ++ post →
        listContainsSub pat.data (pre ++ pat.data.dropLast) = false →
        strReplace s pat repl = ⟨pre⟩ ++ repl ++ strReplace ⟨post⟩ pat repl)
    ∧ (∀ (pat repl s : String), pat.data ≠ [] →
        listContainsSub pat.data s.data = false →
        strReplace s pat repl = s)
    ∧ (∀ n ∈ registeredToolsList, ∀ (s : String) (pre post : List Char),
        s.data = pre ++ (typePat n).data ++ post →
        listContainsSub (typePat n).data (pre ++ (typePat n).data.dropLast) = false →
        strReplace s (typePat n) (toolWrapRepl n)
          = ⟨pre⟩ ++ toolWrapRepl n ++ strReplace ⟨post⟩ (typePat n) (toolWrapRepl n))
    ∧ (∀ t ∈ invalidTypeTokens, ∀ (s : String) (pre post : List Char),
        s.data = pre ++ (typePat t).data ++ post →
        listContainsSub (typePat t).data (pre ++ (typePat t).data.dropLast) = false →
        strReplace s (typePat t) infoTypeRepl
          = ⟨pre⟩ ++ infoTypeRepl ++ strReplace ⟨post⟩ (typePat t) infoTypeRepl)
    ∧ (∀ (s : String) (pre rest : List Char) (k : Nat),
        s.data = pre ++ rest →
        (∀ i : Nat, i < pre.length → commentLen (s.data.drop i) = none) →
        commentLen rest = some k →
        stripComments s = ⟨pre⟩ ++ stripComments ⟨rest.drop k⟩)
    ∧ (∀ s : String, (∀ i : Nat, commentLen (s.data.drop i) = none) →
        stripComments s = s) := by
  have hleft : ∀ (pat repl s : String) (pre post : List Char), pat.data ≠ [] →
      s.data = pre ++ pat.data ++ post →
      listContainsSub pat.data (pre ++ pat.data.dropLast) = false →
      strReplace s pat repl = ⟨pre⟩ ++ repl ++ strReplace ⟨post⟩ pat repl := by
    intro pat repl s pre post hpat hdata hc
    show (⟨replaceSeg pat.data repl.data (s.data.length + 1) s.data⟩ : String)
        = ⟨pre⟩ ++ repl ++ strReplace ⟨post⟩ pat repl
    rw [hdata]
    rw [replaceSeg_leftmost pat.data repl.data hpat pre post
      ((pre ++ pat.data ++ post).length + 1) (Nat.lt_succ_self _) hc]
    rfl
  have hnoocc : ∀ (pat repl s : String), pat.data ≠ [] →
      listContainsSub pat.data s.data = false → strReplace s pat repl = s := by
    intro pat repl s hpat hc
    exact congrArg (fun l => (⟨l⟩ : String)) (replaceSeg_of_not_contains pat.data repl.data
      hpat s.data (s.data.length + 1) (Nat.lt_succ_self _) hc)
  have hpatne : ∀ n : String, (typePat n).data ≠ [] := by
    intro n hemp
    have h2 := congrArg List.length hemp
    simp [typePat] at h2
  have hcl : ∀ (s : String) (pre rest : List Char) (k : Nat),
      s.data = pre ++ rest →
      (∀ i : Nat, i < pre.length → commentLen (s.data.drop i) = none) →
      commentLen rest = some k →
      stripComments s = ⟨pre⟩ ++ stripComments ⟨rest.drop k⟩ := by
    intro s pre rest k hdata hnone hk
    rw [hdata] at hnone
    show (⟨stripCommentsAux (s.data.length + 1) s.data⟩ : String)
        = ⟨pre⟩ ++ stripComments ⟨rest.drop k⟩
    rw [hdata]
    rw [stripCommentsAux_leftmost pre rest k ((pre ++ rest).length + 1)
      (Nat.lt_succ_self _) hnone hk]
    rfl
  have hcn : ∀ s : String, (∀ i : Nat, commentLen (s.data.drop i) = none) →
      stripComments s = s := by
    intro s hnone
    exact congrArg (fun l => (⟨l⟩ : String)) (stripCommentsAux_no_comment s.data
      (s.data.length + 1) (Nat.lt_succ_self _) hnone)
  refine ⟨fun raw => rfl, fun s => rfl, fun s => rfl, hleft, hnoocc,
    fun n _ s pre post hdata hc =>
      hleft (typePat n) (toolWrapRepl n) s pre post (hpatne n) hdata hc,
    fun t _ s pre post hdata hc =>
      hleft (typePat t) infoTypeRepl s pre post (hpatne t) hdata hc,
    hcl, hcn⟩

/-- C8 amended witness: the universal occurrence rewrites evaluated at
concrete inputs — a wrapper rewrite and an invalid-type rewrite inside
surrounding text, replace leaving pattern-free text unchanged, and the
comment pass removing a concrete comment and leaving the empty string
unchanged. -/
theorem format_repair_fixed_rewrites_witness :
    strReplace "[\x7b\"type\": \"reflect\"\x7d, 1]" (typePat "reflect") (toolWrapRepl "reflect")
        = ⟨("[\x7b" : String).data⟩ ++ toolWrapRepl "reflect"
            ++ strReplace ⟨("\x7d, 1]" : String).data⟩ (typePat "reflect") (toolWrapRepl "reflect")
    ∧ strReplace "\x7b\"type\": \"if\"\x7d" (typePat "if") infoTypeRepl
        = ⟨("\x7b" : String).data⟩ ++ infoTypeRepl
            ++ strReplace ⟨("\x7d" : String).data⟩ (typePat "if") infoTypeRepl
    ∧ strReplace "no type keys here" (typePat "reflect") (toolWrapRepl "reflect")
        = "no type keys here"
    ∧ stripComments "a, // c\nb" = ⟨("a" : String).data⟩
        ++ stripComments ⟨(", // c\nb" : String).data.drop 6⟩
    ∧ stripComments "" = "" := by
  refine ⟨?_, ?_, ?_, ?_, ?_⟩
  · exact format_repair_fixed_rewrites.2.2.2.2.2.1 "reflect" (by decide) _
      ("[\x7b" : String).data ("\x7d, 1]" : String).data (by decide) (by decide)
  · exact format_repair_fixed_rewrites.2.2.2.2.2.2.1 "if" (by decide) _
      ("\x7b" : String).data ("\x7d" : String).data (by decide) (by decide)
  · exact format_repair_fixed_rewrites.2.2.2.2.1 (typePat "reflect") (toolWrapRepl "reflect") _
      (by decide) (by decide)
  · refine format_repair_fixed_rewrites.2.2.2.2.2.2.2.1 "a, // c\nb"
      ("a" : String).data (", // c\nb" : String).data 6 (by decide) ?_ (by decide)
    intro i hi
    have h1 : ("a" : String).data.length = 1 := by decide
    have h0 : i = 0 := by omega
    subst h0
    decide
  · refine format_repair_fixed_rewrites.2.2.2.2.2.2.2.2 "" ?_
    intro i
    have h0 : ("" : String).data.drop i = [] := by cases i <;> rfl
    rw [h0]
    decide
